import Mathlib

/-!
Verification of the EV route-planning core of `finaldaaproject.py`.

The program keeps a fixed undirected weighted graph of cities (networkx
`G`), a table of per-city charging prices, a textbook Dijkstra over a
`heapq` min-heap of `(cost, node, path)` tuples, and a greedy charging
simulation `calculate_path` over the path Dijkstra returns.

Embedding choices:
* Python floats are modelled as exact rationals (`ℚ`); every number the
  program manipulates on the claims' inputs is exactly representable.
* `heapq` pops the least tuple under Python's lexicographic tuple order
  (cost, then node name, then path list); we model the heap as the
  multiset of its entries, kept in a list, and pop the least entry under
  the same order (`entryLt`).  Python string comparison is code-point
  lexicographic, mirrored by `strLt` on `String.data`.
* The `while pq:` loop is turned into structural recursion on a fuel
  argument.  Each iteration pops one entry, and entries are pushed only
  once per finalized node (at most its degree) plus the initial entry, so
  the total number of iterations is at most `1 + 2 * |edges|`; `dijkstra`
  passes exactly that fuel, hence the fuel never runs out and the
  fuel-exhausted branch coincides with the loop's natural exit value.
* Dictionary lookups that would raise `KeyError` in Python (a missing
  edge or a missing charging price) are modelled by `Option`, with `none`
  propagated as the overall result; the no-route early return
  (`return None, None, None, None`) is the distinct value
  `some RouteResult.noRoute`.
* `calculate_path` closes over the module-level graph and price table in
  Python; here both are explicit parameters (the spec's design notes
  reframe them as an injected immutable Graph Model), and the fixed
  dataset `G` / `charging_prices` instantiate them in the claims.
* The charging plan is a list of `ChargingStop` records; Python stores
  the same (city, amount, price) data rendered as display strings.
-/

attribute [local semireducible] Rat.add Rat.mul Rat.sub Rat.inv Rat.ofScientific

/-- City identifiers are their names, as in the Python source. -/
abbrev City := String

/-- The graph is its (undirected) edge list, as built from `edges` by
`G.add_edge(u, v, distance=dist)`. -/
structure Graph where
  edges : List (City × City × ℚ)

/-- `graph[node].items()`: the adjacency of `node`, in edge-insertion
order, as networkx builds it. -/
def nbrs (g : Graph) (u : City) : List (City × ℚ) :=
  g.edges.foldr
    (fun e acc =>
      if e.1 = u then (e.2.1, e.2.2) :: acc
      else if e.2.1 = u then (e.1, e.2.2) :: acc
      else acc) []

/-- `G[u][v]["distance"]`: the stored distance of the undirected edge
between `u` and `v`, `none` when the lookup would raise `KeyError`. -/
def edgeDist (g : Graph) (u v : City) : Option ℚ :=
  (g.edges.find? (fun e => (e.1 == u && e.2.1 == v) || (e.1 == v && e.2.1 == u))).map
    (fun e => e.2.2)

/-- Python `<` on characters: code-point comparison. -/
def charLt (a b : Char) : Bool := a.toNat < b.toNat

/-- Python `<` on lists of characters (and hence on strings):
lexicographic, a strict prefix being smaller. -/
def charListLt : List Char → List Char → Bool
  | [], [] => false
  | [], _ :: _ => true
  | _ :: _, [] => false
  | a :: as, b :: bs =>
    if charLt a b then true else if charLt b a then false else charListLt as bs

/-- Python `<` on strings. -/
def strLt (a b : City) : Bool := charListLt a.data b.data

/-- Python `<` on lists of strings, as used for the `path` component of
heap entries. -/
def strListLt : List City → List City → Bool
  | [], [] => false
  | [], _ :: _ => true
  | _ :: _, [] => false
  | a :: as, b :: bs =>
    if strLt a b then true else if strLt b a then false else strListLt as bs

/-- A frontier entry `(cost, node, path)` exactly as pushed on the heap. -/
abbrev HeapEntry := ℚ × City × List City

/-- Python `<` on the heap's `(cost, node, path)` tuples: lexicographic. -/
def entryLt (a b : HeapEntry) : Bool :=
  if a.1 < b.1 then true
  else if b.1 < a.1 then false
  else if strLt a.2.1 b.2.1 then true
  else if strLt b.2.1 a.2.1 then false
  else strListLt a.2.2 b.2.2

/-- `heapq.heappop`: remove the least entry (first such occurrence) of
the heap's multiset of entries; `none` on an empty heap. -/
def popMin : List HeapEntry → Option (HeapEntry × List HeapEntry)
  | [] => none
  | e :: es =>
    match popMin es with
    | none => some (e, [])
    | some (m, rest) => if entryLt m e then some (m, e :: rest) else some (e, es)

/-- The `while pq:` loop of `dijkstra`, one fuel unit per iteration.
`dst` is the Python parameter `end` (a Lean keyword). -/
def dijkstraGo (g : Graph) (dst : City) :
    Nat → List HeapEntry → List City → WithTop ℚ × List City
  | 0, _, _ => (⊤, [])
  | fuel + 1, pq, visited =>
    match popMin pq with
    | none => (⊤, [])
    | some ((cost, node, path), rest) =>
      if node ∈ visited then dijkstraGo g dst fuel rest visited
      else
        let path2 := path ++ [node]
        if node = dst then ((cost : WithTop ℚ), path2)
        else
          dijkstraGo g dst fuel
            (rest ++ (nbrs g node).filterMap
              (fun nd =>
                if nd.1 = node ∨ nd.1 ∈ visited then none
                else some (cost + nd.2, nd.1, path2)))
            (node :: visited)

/-- `dijkstra(graph, start, end)`.  The loop runs at most
`1 + 2 * |edges|` iterations (one pop per iteration; every entry was
pushed, and pushes are the initial entry plus, per node finalized once,
at most its degree, totalling at most `1 + Σ deg = 1 + 2|E|`), so that
fuel is never exhausted and the `(⊤, [])` fuel-out value is only ever
produced together with the loop's own empty-heap exit. -/
def dijkstra (graph : Graph) (start dst : City) : WithTop ℚ × List City :=
  dijkstraGo graph dst (1 + 2 * graph.edges.length) [(0, start, [])] []

/-- One recorded recharge: the (city, energy amount, price per unit)
data of a `charging_plan` line. -/
structure ChargingStop where
  city : City
  amount : ℚ
  price : ℚ
deriving DecidableEq, Repr

/-- Result of `calculate_path`: the `(None, None, None, None)` no-route
return, or `(path, total_distance, total_cost, charging_plan)`. -/
inductive RouteResult where
  | noRoute : RouteResult
  | found : List City → WithTop ℚ → ℚ → List ChargingStop → RouteResult
deriving DecidableEq

/-- The `for i in range(len(path) - 1):` battery loop of
`calculate_path`: walks consecutive city pairs, charging to full at the
current city whenever the next leg exceeds the remaining battery.
Returns the final `(remaining_battery, total_cost, charging_plan)`;
`none` models a `KeyError` on a missing edge or price. -/
def simGo (g : Graph) (prices : City → Option ℚ) (cap : ℚ) :
    List City → ℚ → ℚ → List ChargingStop → Option (ℚ × ℚ × List ChargingStop)
  | c1 :: c2 :: rest, rb, tc, plan =>
    match edgeDist g c1 c2 with
    | none => none
    | some dist =>
      if rb < dist then
        match prices c1 with
        | none => none
        | some p =>
          simGo g prices cap (c2 :: rest) (cap - dist) (tc + (cap - rb) * p)
            (plan ++ [⟨c1, cap - rb, p⟩])
      else simGo g prices cap (c2 :: rest) (rb - dist) tc plan
  | _, rb, tc, plan => some (rb, tc, plan)

/-- `calculate_path(start, end, battery_capacity)`, over an explicit
graph and price table (the Python module-level `G` and
`charging_prices`). -/
def calculate_path (g : Graph) (prices : City → Option ℚ) (start dst : City)
    (cap : ℚ) : Option RouteResult :=
  let td := (dijkstra g start dst).1
  let path := (dijkstra g start dst).2
  if path = [] then some RouteResult.noRoute
  else
    match simGo g prices cap path cap 0 [] with
    | none => none
    | some (rb, tc, plan) =>
      if rb < 0 then
        match prices dst with
        | none => none
        | some p =>
          some (RouteResult.found path td (tc + |rb| * p) (plan ++ [⟨dst, |rb|, p⟩]))
      else some (RouteResult.found path td tc plan)

/-- The hard-coded edge list of the dataset. -/
def edges : List (City × City × ℚ) :=
  [("Mumbai", "Nashik", 180),
   ("Mumbai", "Goa", 580),
   ("Nashik", "Pune", 300),
   ("Pune", "Satara", 120),
   ("Satara", "Kolhapur", 180),
   ("Kolhapur", "Goa", 200),
   ("Goa", "Hyderabad", 610),
   ("Hyderabad", "Kolhapur", 300)]

/-- The dataset graph `G`. -/
def G : Graph := ⟨edges⟩

/-- The hard-coded `charging_prices` dictionary (₹ per unit). -/
def priceList : List (City × ℚ) :=
  [("Mumbai", 1.8),
   ("Nashik", 1.5),
   ("Pune", 1.2),
   ("Satara", 1.5),
   ("Kolhapur", 1.8),
   ("Goa", 2.0),
   ("Hyderabad", 2.2)]

/-- `charging_prices[c]`, `none` for a `KeyError`. -/
def charging_prices (c : City) : Option ℚ :=
  (priceList.find? (fun p => p.1 == c)).map (fun p => p.2)

/-- `list(G.nodes)`: the cities of the dataset. -/
def cityNames : List City :=
  ["Mumbai", "Nashik", "Goa", "Pune", "Satara", "Kolhapur", "Hyderabad"]

/-- `p` is a walk in `g` from `s` to `e`: nonempty, starting at `s`,
ending at `e`, with every consecutive pair joined by an edge. -/
inductive IsPathFrom (g : Graph) : City → City → List City → Prop
  | single (c : City) : IsPathFrom g c c [c]
  | cons (u v e : City) (rest : List City) (w : ℚ)
      (h : edgeDist g u v = some w)
      (hrest : IsPathFrom g v e (v :: rest)) :
      IsPathFrom g u e (u :: v :: rest)

/-- Total length of a city sequence: the sum of the stored distances of
its consecutive pairs. -/
def pathWeight (g : Graph) : List City → ℚ
  | u :: v :: rest => (edgeDist g u v).getD 0 + pathWeight g (v :: rest)
  | _ => 0

/-- Boolean check for `IsPathFrom`. -/
def isPathFromB (g : Graph) (s e : City) : List City → Bool
  | [] => false
  | [c] => s == c && e == c
  | u :: v :: rest => s == u && (edgeDist g u v).isSome && isPathFromB g v e (v :: rest)

/-- Two cities joined by some walk. -/
def Connected (g : Graph) (s e : City) : Prop := ∃ p, IsPathFrom g s e p

/-- One row of the hand-checked all-pairs shortest-distance table, in
the city order Mumbai, Nashik, Pune, Satara, Kolhapur, Goa, Hyderabad. -/
def distRow (m n p s k g h : ℚ) : City → ℚ := fun c =>
  if c = "Mumbai" then m
  else if c = "Nashik" then n
  else if c = "Pune" then p
  else if c = "Satara" then s
  else if c = "Kolhapur" then k
  else if c = "Goa" then g
  else if c = "Hyderabad" then h
  else 0

/-- All-pairs shortest distances of the dataset graph; certified below
as a feasible potential matching `dijkstra`'s outputs. -/
def distTable (src : City) : City → ℚ :=
  if src = "Mumbai" then distRow 0 180 480 600 780 580 1080
  else if src = "Nashik" then distRow 180 0 300 420 600 760 900
  else if src = "Pune" then distRow 480 300 0 120 300 500 600
  else if src = "Satara" then distRow 600 420 120 0 180 380 480
  else if src = "Kolhapur" then distRow 780 600 300 180 0 200 300
  else if src = "Goa" then distRow 580 760 500 380 200 0 500
  else if src = "Hyderabad" then distRow 1080 900 600 480 300 500 0
  else fun _ => 0

/-- `distTable src` is zero at `src` and satisfies both triangle
inequalities over every edge: a feasible potential for lower bounds. -/
def potentialOK (src : City) : Bool :=
  decide (distTable src src = 0) &&
  G.edges.all (fun e =>
    decide (distTable src e.2.1 ≤ distTable src e.1 + e.2.2) &&
    decide (distTable src e.1 ≤ distTable src e.2.1 + e.2.2))

/-- For one (start, end) pair: `dijkstra` returns a genuine path whose
weight equals both the returned cost and the table entry, the path is
simple, and every city on it has a charging price. -/
def checkPair (s e : City) : Bool :=
  isPathFromB G s e (dijkstra G s e).2 &&
  decide ((dijkstra G s e).1 = ((distTable s e : ℚ) : WithTop ℚ)) &&
  decide (pathWeight G (dijkstra G s e).2 = distTable s e) &&
  decide (dijkstra G s e).2.Nodup &&
  (dijkstra G s e).2.all (fun c => (charging_prices c).isSome)

/-- The conjunction of `potentialOK` and `checkPair` over all cities. -/
def allChecks : Bool :=
  cityNames.all (fun s => potentialOK s && cityNames.all (fun e => checkPair s e))

/-! ### Facts extracted from the decidable whole-dataset check -/

/-- All 49 pair checks and all 7 potential checks hold on the dataset. -/
theorem allChecks_true : allChecks = true := by decide

/-- Membership form of `allChecks` for the potential conditions. -/
theorem potentialOK_of_mem {s : City} (hs : s ∈ cityNames) : potentialOK s = true := by
  have h := allChecks_true
  unfold allChecks at h
  rw [List.all_eq_true] at h
  exact (Bool.and_eq_true _ _ |>.mp (h s hs)).1

/-- Membership form of `allChecks` for the per-pair checks. -/
theorem checkPair_of_mem {s e : City} (hs : s ∈ cityNames) (he : e ∈ cityNames) :
    checkPair s e = true := by
  have h := allChecks_true
  unfold allChecks at h
  rw [List.all_eq_true] at h
  have h2 := (Bool.and_eq_true _ _ |>.mp (h s hs)).2
  rw [List.all_eq_true] at h2
  exact h2 e he

/-- Unpacked `checkPair`. -/
theorem checkPair_props {s e : City} (hs : s ∈ cityNames) (he : e ∈ cityNames) :
    isPathFromB G s e (dijkstra G s e).2 = true ∧
    (dijkstra G s e).1 = ((distTable s e : ℚ) : WithTop ℚ) ∧
    pathWeight G (dijkstra G s e).2 = distTable s e ∧
    (dijkstra G s e).2.Nodup ∧
    ∀ c ∈ (dijkstra G s e).2, (charging_prices c).isSome := by
  have h := checkPair_of_mem hs he
  unfold checkPair at h
  simp only [Bool.and_eq_true, decide_eq_true_eq, List.all_eq_true] at h
  exact ⟨h.1.1.1.1, h.1.1.1.2, h.1.1.2, h.1.2, h.2⟩

/-- Unpacked `potentialOK`. -/
theorem potential_props {s : City} (hs : s ∈ cityNames) :
    distTable s s = 0 ∧
    ∀ e ∈ G.edges,
      distTable s e.2.1 ≤ distTable s e.1 + e.2.2 ∧
      distTable s e.1 ≤ distTable s e.2.1 + e.2.2 := by
  have h := potentialOK_of_mem hs
  unfold potentialOK at h
  simp only [Bool.and_eq_true, decide_eq_true_eq, List.all_eq_true] at h
  exact h

/-! ### Walks and weights -/

/-- A successful `edgeDist` lookup names an actual stored edge. -/
theorem edgeDist_mem (g : Graph) (u v : City) (w : ℚ) (h : edgeDist g u v = some w) :
    (u, v, w) ∈ g.edges ∨ (v, u, w) ∈ g.edges := by
  unfold edgeDist at h
  rcases hf : g.edges.find?
      (fun e => (e.1 == u && e.2.1 == v) || (e.1 == v && e.2.1 == u)) with _ | e
  · rw [hf] at h; simp at h
  · rw [hf] at h
    simp only [Option.map_some', Option.some.injEq] at h
    have hmem := List.mem_of_find?_eq_some hf
    have hpred := List.find?_some hf
    simp only [Bool.or_eq_true, Bool.and_eq_true, beq_iff_eq] at hpred
    rcases hpred with ⟨h1, h2⟩ | ⟨h1, h2⟩
    · left
      have he : (u, v, w) = e := by
        rw [← h1, ← h2, ← h]
      rw [he]; exact hmem
    · right
      have he : (v, u, w) = e := by
        rw [← h1, ← h2, ← h]
      rw [he]; exact hmem

/-- Soundness of the Boolean walk check. -/
theorem isPathFromB_sound (g : Graph) (p : List City) :
    ∀ s e : City, isPathFromB g s e p = true → IsPathFrom g s e p := by
  induction p with
  | nil => intro s e h; simp [isPathFromB] at h
  | cons u t ih =>
    intro s e h
    cases t with
    | nil =>
      simp only [isPathFromB, Bool.and_eq_true, beq_iff_eq] at h
      obtain ⟨h1, h2⟩ := h
      rw [h1, h2]
      exact IsPathFrom.single u
    | cons v rest =>
      simp only [isPathFromB, Bool.and_eq_true, beq_iff_eq, Option.isSome_iff_exists] at h
      obtain ⟨⟨hsu, w, hw⟩, hrest⟩ := h
      rw [hsu]
      exact IsPathFrom.cons u v e rest w hw (ih v e hrest)

/-- Feasible-potential lower bound: if `d` is zero-consistent with the
edges, every walk from `u` to `e` weighs at least `d e - d u`. -/
theorem potential_bound (g : Graph) (d : City → ℚ)
    (hd : ∀ e ∈ g.edges, d e.2.1 ≤ d e.1 + e.2.2 ∧ d e.1 ≤ d e.2.1 + e.2.2)
    (p : List City) (u e : City) (hp : IsPathFrom g u e p) :
    d e ≤ d u + pathWeight g p := by
  induction hp with
  | single c => simp [pathWeight]
  | cons u v e rest w hw hrest ih =>
    have hvu : d v ≤ d u + w := by
      rcases edgeDist_mem g u v w hw with h | h
      · exact (hd _ h).1
      · exact (hd _ h).2
    have hweq : pathWeight g (u :: v :: rest) = w + pathWeight g (v :: rest) := by
      simp [pathWeight, hw]
    rw [hweq]
    linarith

/-- A popped entry was on the heap. -/
theorem popMin_mem : ∀ {l : List HeapEntry} {e : HeapEntry} {rest : List HeapEntry},
    popMin l = some (e, rest) → e ∈ l := by
  intro l
  induction l with
  | nil => intro e rest h; simp [popMin] at h
  | cons a as ih =>
    intro e rest h
    rw [popMin] at h
    rcases hp : popMin as with _ | ⟨m, r⟩
    · simp only [hp, Option.some.injEq, Prod.mk.injEq] at h
      rw [← h.1]; exact List.mem_cons_self a as
    · simp only [hp] at h
      by_cases hlt : entryLt m a = true
      · simp only [if_pos hlt, Option.some.injEq, Prod.mk.injEq] at h
        exact List.mem_cons_of_mem a (h.1 ▸ ih hp)
      · simp only [if_neg hlt, Option.some.injEq, Prod.mk.injEq] at h
        rw [← h.1]; exact List.mem_cons_self a as

/-- What remains after a pop was on the heap. -/
theorem popMin_rest_mem : ∀ {l : List HeapEntry} {e : HeapEntry} {rest : List HeapEntry},
    popMin l = some (e, rest) → ∀ x ∈ rest, x ∈ l := by
  intro l
  induction l with
  | nil => intro e rest h; simp [popMin] at h
  | cons a as ih =>
    intro e rest h x hx
    rw [popMin] at h
    rcases hp : popMin as with _ | ⟨m, r⟩
    · simp only [hp, Option.some.injEq, Prod.mk.injEq] at h
      rw [← h.2] at hx
      simp at hx
    · simp only [hp] at h
      by_cases hlt : entryLt m a = true
      · simp only [if_pos hlt, Option.some.injEq, Prod.mk.injEq] at h
        rw [← h.2] at hx
        rcases List.mem_cons.mp hx with hxa | hxr
        · rw [hxa]; exact List.mem_cons_self a as
        · exact List.mem_cons_of_mem a (ih hp x hxr)
      · simp only [if_neg hlt, Option.some.injEq, Prod.mk.injEq] at h
        rw [← h.2] at hx
        exact List.mem_cons_of_mem a hx

/-- A walk is nonempty. -/
theorem IsPathFrom.ne_nil {g : Graph} {s e : City} {p : List City}
    (h : IsPathFrom g s e p) : p ≠ [] := by
  cases h with
  | single c => simp
  | cons u v e rest w hw hrest => simp

/-- Appending one more edge to a walk. -/
theorem isPathFrom_extend (g : Graph) (s u v : City) (p : List City) (w : ℚ)
    (hp : IsPathFrom g s u p) (hw : edgeDist g u v = some w) :
    IsPathFrom g s v (p ++ [v]) := by
  induction hp with
  | single c =>
    exact IsPathFrom.cons c v v [] w hw (IsPathFrom.single v)
  | cons a b e rest w' h hrest ih =>
    exact IsPathFrom.cons a b v (rest ++ [v]) w' h (ih hw)

/-- Membership in the adjacency fold names a matching stored edge. -/
theorem adj_fold_mem (u : City) (nd : City × ℚ) :
    ∀ l : List (City × City × ℚ),
      nd ∈ l.foldr (fun e acc =>
        if e.1 = u then (e.2.1, e.2.2) :: acc
        else if e.2.1 = u then (e.1, e.2.2) :: acc
        else acc) [] →
      ∃ e ∈ l, ((e.1 == u && e.2.1 == nd.1) || (e.1 == nd.1 && e.2.1 == u)) = true := by
  intro l
  induction l with
  | nil => intro h; simp at h
  | cons a as ih =>
    intro h
    simp only [List.foldr_cons] at h
    by_cases h1 : a.1 = u
    · rw [if_pos h1] at h
      rcases List.mem_cons.mp h with hh | hh
      · refine ⟨a, List.mem_cons_self a as, ?_⟩
        have h2 : a.2.1 = nd.1 := by rw [hh]
        simp [h1, h2]
      · obtain ⟨e', he', hpred⟩ := ih hh
        exact ⟨e', List.mem_cons_of_mem a he', hpred⟩
    · rw [if_neg h1] at h
      by_cases h2 : a.2.1 = u
      · rw [if_pos h2] at h
        rcases List.mem_cons.mp h with hh | hh
        · refine ⟨a, List.mem_cons_self a as, ?_⟩
          have h3 : a.1 = nd.1 := by rw [hh]
          simp [h2, h3]
        · obtain ⟨e', he', hpred⟩ := ih hh
          exact ⟨e', List.mem_cons_of_mem a he', hpred⟩
      · rw [if_neg h2] at h
        obtain ⟨e', he', hpred⟩ := ih h
        exact ⟨e', List.mem_cons_of_mem a he', hpred⟩

/-- An adjacency-list entry of `u` gives a successful `edgeDist` lookup. -/
theorem nbrs_edgeDist (g : Graph) (u : City) (nd : City × ℚ) (h : nd ∈ nbrs g u) :
    ∃ w, edgeDist g u nd.1 = some w := by
  have hex := adj_fold_mem u nd g.edges h
  have hsome : (g.edges.find?
      (fun e => (e.1 == u && e.2.1 == nd.1) || (e.1 == nd.1 && e.2.1 == u))).isSome := by
    rw [List.find?_isSome]
    obtain ⟨e', he', hpred⟩ := hex
    exact ⟨e', he', hpred⟩
  rcases hf : g.edges.find?
      (fun e => (e.1 == u && e.2.1 == nd.1) || (e.1 == nd.1 && e.2.1 == u)) with _ | e'
  · rw [hf] at hsome; simp at hsome
  · exact ⟨e'.2.2, by unfold edgeDist; rw [hf]; rfl⟩

/-- With nonnegative stored distances, walks have nonnegative weight. -/
theorem pathWeight_nonneg (g : Graph)
    (hpos : ∀ u v w, edgeDist g u v = some w → 0 ≤ w)
    (p : List City) (s e : City) (hp : IsPathFrom g s e p) :
    0 ≤ pathWeight g p := by
  induction hp with
  | single c => simp [pathWeight]
  | cons u v e rest w hw hrest ih =>
    have h1 : 0 ≤ w := hpos u v w hw
    have h2 : pathWeight g (u :: v :: rest) = w + pathWeight g (v :: rest) := by
      simp [pathWeight, hw]
    rw [h2]
    linarith

/-- Total recorded cost of a charging plan: amount times recorded price. -/
def costSum (plan : List ChargingStop) : ℚ :=
  (plan.map (fun st => st.amount * st.price)).sum

/-- The battery loop leaves the already-accumulated plan as a prefix,
and the cities of the new stops follow the path (minus its last city) in
order. -/
theorem simGo_plan (g : Graph) (prices : City → Option ℚ) (cap : ℚ) :
    ∀ (path : List City) (rb tc : ℚ) (plan : List ChargingStop)
      (rb' tc' : ℚ) (plan' : List ChargingStop),
      simGo g prices cap path rb tc plan = some (rb', tc', plan') →
      ∃ news, plan' = plan ++ news ∧
        List.Sublist (news.map ChargingStop.city) path.dropLast := by
  intro path
  induction path with
  | nil =>
    intro rb tc plan rb' tc' plan' h
    simp only [simGo, Option.some.injEq, Prod.mk.injEq] at h
    exact ⟨[], by simp [h.2.2], by simp⟩
  | cons c1 t ih =>
    intro rb tc plan rb' tc' plan' h
    cases t with
    | nil =>
      simp only [simGo, Option.some.injEq, Prod.mk.injEq] at h
      exact ⟨[], by simp [h.2.2], by simp⟩
    | cons c2 rest =>
      rw [simGo] at h
      rcases hed : edgeDist g c1 c2 with _ | dist
      · simp only [hed] at h
        exact Option.noConfusion h
      · simp only [hed] at h
        by_cases hlt : rb < dist
        · rw [if_pos hlt] at h
          rcases hp : prices c1 with _ | p
          · simp only [hp] at h
            exact Option.noConfusion h
          · simp only [hp] at h
            obtain ⟨news, hplan, hsub⟩ := ih _ _ _ _ _ _ h
            refine ⟨⟨c1, cap - rb, p⟩ :: news, ?_, ?_⟩
            · rw [hplan]; simp
            · have hdl : (c1 :: c2 :: rest).dropLast = c1 :: (c2 :: rest).dropLast := rfl
              rw [hdl, List.map_cons]
              exact List.Sublist.cons₂ c1 hsub
        · rw [if_neg hlt] at h
          obtain ⟨news, hplan, hsub⟩ := ih _ _ _ _ _ _ h
          refine ⟨news, hplan, ?_⟩
          have hdl : (c1 :: c2 :: rest).dropLast = c1 :: (c2 :: rest).dropLast := rfl
          rw [hdl]
          exact hsub.trans (List.sublist_cons_self c1 ((c2 :: rest).dropLast))

/-- The battery loop accumulates exactly the recorded stop costs, and
every stop it records carries its city's price. -/
theorem simGo_cost (g : Graph) (prices : City → Option ℚ) (cap : ℚ) :
    ∀ (path : List City) (rb tc : ℚ) (plan : List ChargingStop)
      (rb' tc' : ℚ) (plan' : List ChargingStop),
      simGo g prices cap path rb tc plan = some (rb', tc', plan') →
      tc = costSum plan → (∀ st ∈ plan, prices st.city = some st.price) →
      tc' = costSum plan' ∧ ∀ st ∈ plan', prices st.city = some st.price := by
  intro path
  induction path with
  | nil =>
    intro rb tc plan rb' tc' plan' h hc hpr
    simp only [simGo, Option.some.injEq, Prod.mk.injEq] at h
    rw [← h.2.1, ← h.2.2]
    exact ⟨hc, hpr⟩
  | cons c1 t ih =>
    intro rb tc plan rb' tc' plan' h hc hpr
    cases t with
    | nil =>
      simp only [simGo, Option.some.injEq, Prod.mk.injEq] at h
      rw [← h.2.1, ← h.2.2]
      exact ⟨hc, hpr⟩
    | cons c2 rest =>
      rw [simGo] at h
      rcases hed : edgeDist g c1 c2 with _ | dist
      · simp only [hed] at h
        exact Option.noConfusion h
      · simp only [hed] at h
        by_cases hlt : rb < dist
        · rw [if_pos hlt] at h
          rcases hp : prices c1 with _ | p
          · simp only [hp] at h
            exact Option.noConfusion h
          · simp only [hp] at h
            refine ih _ _ _ _ _ _ h ?_ ?_
            · rw [hc]
              simp [costSum]
            · intro st hst
              rcases List.mem_append.mp hst with hin | hnew
              · exact hpr st hin
              · simp only [List.mem_singleton] at hnew
                rw [hnew]
                exact hp
        · rw [if_neg hlt] at h
          exact ih _ _ _ _ _ _ h hc hpr

/-- With nonnegative distances, a battery never above capacity stays
there, and every stop the loop records has a nonnegative amount. -/
theorem simGo_amounts (g : Graph) (prices : City → Option ℚ) (cap : ℚ)
    (hpos : ∀ u v w, edgeDist g u v = some w → 0 ≤ w) :
    ∀ (path : List City) (rb tc : ℚ) (plan : List ChargingStop)
      (rb' tc' : ℚ) (plan' : List ChargingStop),
      simGo g prices cap path rb tc plan = some (rb', tc', plan') →
      rb ≤ cap → (∀ st ∈ plan, 0 ≤ st.amount) →
      (∀ st ∈ plan', 0 ≤ st.amount) ∧ rb' ≤ cap := by
  intro path
  induction path with
  | nil =>
    intro rb tc plan rb' tc' plan' h hrb hpl
    simp only [simGo, Option.some.injEq, Prod.mk.injEq] at h
    rw [← h.1, ← h.2.2]
    exact ⟨hpl, hrb⟩
  | cons c1 t ih =>
    intro rb tc plan rb' tc' plan' h hrb hpl
    cases t with
    | nil =>
      simp only [simGo, Option.some.injEq, Prod.mk.injEq] at h
      rw [← h.1, ← h.2.2]
      exact ⟨hpl, hrb⟩
    | cons c2 rest =>
      rw [simGo] at h
      rcases hed : edgeDist g c1 c2 with _ | dist
      · simp only [hed] at h
        exact Option.noConfusion h
      · simp only [hed] at h
        have hd0 : 0 ≤ dist := hpos c1 c2 dist hed
        by_cases hlt : rb < dist
        · rw [if_pos hlt] at h
          rcases hp : prices c1 with _ | p
          · simp only [hp] at h
            exact Option.noConfusion h
          · simp only [hp] at h
            refine ih _ _ _ _ _ _ h (by linarith) ?_
            intro st hst
            rcases List.mem_append.mp hst with hin | hnew
            · exact hpl st hin
            · simp only [List.mem_singleton] at hnew
              rw [hnew]
              show (0:ℚ) ≤ cap - rb
              linarith
        · rw [if_neg hlt] at h
          exact ih _ _ _ _ _ _ h (by linarith) hpl

/-- When the remaining battery covers the whole remaining walk, the loop
charges nowhere and just subtracts the walk's weight. -/
theorem simGo_no_charge (g : Graph) (prices : City → Option ℚ) (cap : ℚ)
    (hpos : ∀ u v w, edgeDist g u v = some w → 0 ≤ w) :
    ∀ (path : List City) (s e : City), IsPathFrom g s e path →
      ∀ (rb tc : ℚ) (plan : List ChargingStop), pathWeight g path ≤ rb →
      simGo g prices cap path rb tc plan = some (rb - pathWeight g path, tc, plan) := by
  intro path s e hp
  induction hp with
  | single c =>
    intro rb tc plan hw
    simp [simGo, pathWeight]
  | cons u v e rest w hw hrest ih =>
    intro rb tc plan hwle
    have hweq : pathWeight g (u :: v :: rest) = w + pathWeight g (v :: rest) := by
      simp [pathWeight, hw]
    have hwrest : 0 ≤ pathWeight g (v :: rest) :=
      pathWeight_nonneg g hpos (v :: rest) v e hrest
    rw [hweq] at hwle
    rw [simGo]
    simp only [hw]
    rw [if_neg (by linarith : ¬ rb < w)]
    have := ih (rb - w) tc plan (by linarith)
    rw [this, hweq, sub_sub rb w (pathWeight g (v :: rest))]

/-- If no walk joins `start` to `dst`, the search loop can only drain
its heap and report failure: every heap entry carries a walk from
`start` to its node, so the success branch would exhibit a walk to
`dst`. -/
theorem dijkstraGo_disconnected (g : Graph) (start dst : City)
    (hcon : ¬ Connected g start dst) :
    ∀ (fuel : Nat) (pq : List HeapEntry) (visited : List City),
      (∀ en ∈ pq, IsPathFrom g start en.2.1 (en.2.2 ++ [en.2.1])) →
      dijkstraGo g dst fuel pq visited = (⊤, []) := by
  intro fuel
  induction fuel with
  | zero => intro pq visited hinv; rfl
  | succ n ih =>
    intro pq visited hinv
    rw [dijkstraGo]
    rcases hpop : popMin pq with _ | ⟨⟨cost, node, path⟩, rest⟩
    · rfl
    · simp only []
      have hbase : IsPathFrom g start node (path ++ [node]) :=
        hinv (cost, node, path) (popMin_mem hpop)
      by_cases hv : node ∈ visited
      · rw [if_pos hv]
        exact ih rest visited (fun en hen => hinv en (popMin_rest_mem hpop en hen))
      · rw [if_neg hv]
        by_cases hd : node = dst
        · exfalso
          apply hcon
          rw [hd] at hbase
          exact ⟨path ++ [dst], hbase⟩
        · rw [if_neg hd]
          apply ih
          intro en hen
          rcases List.mem_append.mp hen with hr | hf
          · exact hinv en (popMin_rest_mem hpop en hr)
          · obtain ⟨nd, hnd, heq⟩ := List.mem_filterMap.mp hf
            by_cases hskip : nd.1 = node ∨ nd.1 ∈ visited
            · rw [if_pos hskip] at heq
              exact Option.noConfusion heq
            · rw [if_neg hskip] at heq
              obtain ⟨w, hw⟩ := nbrs_edgeDist g node nd hnd
              have hext := isPathFrom_extend g start node nd.1 (path ++ [node]) w hbase hw
              rw [← Option.some_inj.mp heq]
              exact hext

/-- Any nonempty path the loop returns ends at the destination. -/
theorem dijkstraGo_last (g : Graph) (dst : City) :
    ∀ (fuel : Nat) (pq : List HeapEntry) (visited : List City),
      (dijkstraGo g dst fuel pq visited).2 = [] ∨
      (dijkstraGo g dst fuel pq visited).2.getLast? = some dst := by
  intro fuel
  induction fuel with
  | zero => intro pq visited; left; rfl
  | succ n ih =>
    intro pq visited
    rw [dijkstraGo]
    rcases hpop : popMin pq with _ | ⟨⟨cost, node, path⟩, rest⟩
    · left; rfl
    · simp only []
      by_cases hv : node ∈ visited
      · rw [if_pos hv]
        exact ih rest visited
      · rw [if_neg hv]
        by_cases hd : node = dst
        · rw [if_pos hd]
          right
          rw [hd]
          exact List.getLast?_concat path
        · rw [if_neg hd]
          exact ih _ _

/-- Any nonempty path `dijkstra` returns ends at the destination. -/
theorem dijkstra_path_last (g : Graph) (s dst : City) :
    (dijkstra g s dst).2 = [] ∨ (dijkstra g s dst).2.getLast? = some dst :=
  dijkstraGo_last g dst (1 + 2 * g.edges.length) [(0, s, [])] []

/-- Anatomy of a successful `calculate_path` run: the path and distance
are `dijkstra`'s, and the cost/plan come from the battery loop, with or
without the post-loop destination charge. -/
theorem calculate_path_found (g : Graph) (prices : City → Option ℚ) (s dst : City)
    (cap : ℚ) (path : List City) (td : WithTop ℚ) (tc : ℚ) (plan : List ChargingStop)
    (h : calculate_path g prices s dst cap = some (RouteResult.found path td tc plan)) :
    path = (dijkstra g s dst).2 ∧ td = (dijkstra g s dst).1 ∧
    ∃ (rb tc0 : ℚ) (plan0 : List ChargingStop),
      simGo g prices cap (dijkstra g s dst).2 cap 0 [] = some (rb, tc0, plan0) ∧
      ((0 ≤ rb ∧ tc = tc0 ∧ plan = plan0) ∨
       (rb < 0 ∧ ∃ p, prices dst = some p ∧ tc = tc0 + |rb| * p ∧
          plan = plan0 ++ [⟨dst, |rb|, p⟩])) := by
  simp only [calculate_path] at h
  by_cases hnil : (dijkstra g s dst).2 = []
  · rw [if_pos hnil] at h
    simp at h
  · rw [if_neg hnil] at h
    rcases hsim : simGo g prices cap (dijkstra g s dst).2 cap 0 [] with _ | ⟨rb, tc0, plan0⟩
    · rw [hsim] at h
      exact Option.noConfusion h
    · simp only [hsim] at h
      by_cases hrb : rb < 0
      · rw [if_pos hrb] at h
        rcases hp : prices dst with _ | p
        · rw [hp] at h
          exact Option.noConfusion h
        · simp only [hp, Option.some.injEq, RouteResult.found.injEq] at h
          obtain ⟨h1, h2, h3, h4⟩ := h
          refine ⟨h1.symm, h2.symm, rb, tc0, plan0, rfl, Or.inr ⟨hrb, p, rfl, h3.symm, h4.symm⟩⟩
      · rw [if_neg hrb] at h
        simp only [Option.some.injEq, RouteResult.found.injEq] at h
        obtain ⟨h1, h2, h3, h4⟩ := h
        refine ⟨h1.symm, h2.symm, rb, tc0, plan0, rfl, Or.inl ⟨by linarith, h3.symm, h4.symm⟩⟩

/-- Every stored distance of the dataset is nonnegative. -/
theorem G_edges_nonneg : ∀ e ∈ G.edges, (0:ℚ) ≤ e.2.2 := by decide

/-- Every successful `edgeDist` lookup in the dataset is nonnegative. -/
theorem G_dist_nonneg (u v : City) (w : ℚ) (h : edgeDist G u v = some w) : 0 ≤ w := by
  rcases edgeDist_mem G u v w h with hm | hm
  · exact G_edges_nonneg _ hm
  · exact G_edges_nonneg _ hm

/-- When every stop's recorded price is its city's price, the recorded
cost sum is the amount-times-city-price sum. -/
theorem costSum_lookup (prices : City → Option ℚ) (plan : List ChargingStop)
    (h : ∀ st ∈ plan, prices st.city = some st.price) :
    costSum plan = (plan.map (fun st => st.amount * ((prices st.city).getD 0))).sum := by
  induction plan with
  | nil => simp [costSum]
  | cons a l ih =>
    have h1 := h a (List.mem_cons_self a l)
    have h2 := ih (fun st hst => h st (List.mem_cons_of_mem a hst))
    simp only [costSum, List.map_cons, List.sum_cons] at h2 ⊢
    rw [h1, Option.getD_some, h2]

/-- A connected pair is equal or the start has an incident edge. -/
theorem Connected.edge_or_eq {g : Graph} {s e : City} (h : Connected g s e) :
    s = e ∨ ∃ v w, edgeDist g s v = some w := by
  obtain ⟨p, hp⟩ := h
  cases hp with
  | single c => exact Or.inl rfl
  | cons u v e rest w hw hrest => exact Or.inr ⟨v, w, hw⟩

/-! ### The claims -/

/-- C1: for every pair of dataset cities connected in the graph,
`dijkstra G start end` returns `(total_distance, path)` where `path` is
a walk from start to end in the graph, `total_distance` is the sum of
its edge distances, and no walk from start to end has a strictly
smaller total distance. -/
theorem C1_dijkstra_shortest_path (s e : City) (hs : s ∈ cityNames) (he : e ∈ cityNames)
    (_hconn : Connected G s e) :
    IsPathFrom G s e (dijkstra G s e).2 ∧
    (dijkstra G s e).1 = ((pathWeight G (dijkstra G s e).2 : ℚ) : WithTop ℚ) ∧
    ∀ p, IsPathFrom G s e p →
      (dijkstra G s e).1 ≤ ((pathWeight G p : ℚ) : WithTop ℚ) := by
  obtain ⟨hB, hcost, hweq, hnd, hpr⟩ := checkPair_props hs he
  refine ⟨isPathFromB_sound G _ s e hB, by rw [hcost, hweq], ?_⟩
  intro p hp
  obtain ⟨hzero, hedges⟩ := potential_props hs
  have hlow := potential_bound G (distTable s) hedges p s e hp
  rw [hzero] at hlow
  rw [hcost]
  exact WithTop.coe_le_coe.mpr (by linarith)

/-- Witness for C1 at the connected pair (Mumbai, Goa). -/
theorem C1_dijkstra_shortest_path_witness :
    "Mumbai" ∈ cityNames ∧ "Goa" ∈ cityNames ∧ Connected G "Mumbai" "Goa" ∧
    (IsPathFrom G "Mumbai" "Goa" (dijkstra G "Mumbai" "Goa").2 ∧
     (dijkstra G "Mumbai" "Goa").1 =
       ((pathWeight G (dijkstra G "Mumbai" "Goa").2 : ℚ) : WithTop ℚ) ∧
     ∀ p, IsPathFrom G "Mumbai" "Goa" p →
       (dijkstra G "Mumbai" "Goa").1 ≤ ((pathWeight G p : ℚ) : WithTop ℚ)) := by
  have hconn : Connected G "Mumbai" "Goa" :=
    ⟨["Mumbai", "Goa"],
     IsPathFrom.cons "Mumbai" "Goa" "Goa" [] 580 (by decide) (IsPathFrom.single "Goa")⟩
  exact ⟨by decide, by decide, hconn,
    C1_dijkstra_shortest_path "Mumbai" "Goa" (by decide) (by decide) hconn⟩

/-- C2: for dataset cities, the total distance `dijkstra` returns
equals the sum over the returned path's consecutive pairs of the stored
edge distance, and `calculate_path` passes that distance through for
the path it returns. -/
theorem C2_distance_is_edge_sum (s e : City) (hs : s ∈ cityNames) (he : e ∈ cityNames) :
    (dijkstra G s e).1 = ((pathWeight G (dijkstra G s e).2 : ℚ) : WithTop ℚ) ∧
    ∀ (cap : ℚ) (path : List City) (td : WithTop ℚ) (tc : ℚ) (plan : List ChargingStop),
      calculate_path G charging_prices s e cap = some (RouteResult.found path td tc plan) →
      td = ((pathWeight G path : ℚ) : WithTop ℚ) := by
  obtain ⟨hB, hcost, hweq, hnd, hpr⟩ := checkPair_props hs he
  refine ⟨by rw [hcost, hweq], ?_⟩
  intro cap path td tc plan h
  obtain ⟨hpath, htd, _⟩ := calculate_path_found G charging_prices s e cap path td tc plan h
  rw [hpath, htd, hcost, hweq]

/-- Witness for C2 at (Mumbai, Goa). -/
theorem C2_distance_is_edge_sum_witness :
    "Mumbai" ∈ cityNames ∧ "Goa" ∈ cityNames ∧
    ((dijkstra G "Mumbai" "Goa").1 =
       ((pathWeight G (dijkstra G "Mumbai" "Goa").2 : ℚ) : WithTop ℚ) ∧
     ∀ (cap : ℚ) (path : List City) (td : WithTop ℚ) (tc : ℚ) (plan : List ChargingStop),
       calculate_path G charging_prices "Mumbai" "Goa" cap =
         some (RouteResult.found path td tc plan) →
       td = ((pathWeight G path : ℚ) : WithTop ℚ)) :=
  ⟨by decide, by decide, C2_distance_is_edge_sum "Mumbai" "Goa" (by decide) (by decide)⟩

/-- C3: whenever `calculate_path` returns a route, the returned total
cost equals the sum over the returned charging stops of the stop's
energy amount times the charging price of the stop's city. -/
theorem C3_cost_is_plan_sum (s e : City) (cap : ℚ) (path : List City) (td : WithTop ℚ)
    (tc : ℚ) (plan : List ChargingStop)
    (h : calculate_path G charging_prices s e cap = some (RouteResult.found path td tc plan)) :
    tc = (plan.map (fun st => st.amount * ((charging_prices st.city).getD 0))).sum := by
  obtain ⟨hpath, htd, rb, tc0, plan0, hsim, hcase⟩ :=
    calculate_path_found G charging_prices s e cap path td tc plan h
  obtain ⟨htc0, hpr0⟩ :=
    simGo_cost G charging_prices cap (dijkstra G s e).2 cap 0 [] rb tc0 plan0 hsim
      (by simp [costSum]) (by simp)
  rcases hcase with ⟨hrb, htc, hplan⟩ | ⟨hrb, p, hp, htc, hplan⟩
  · rw [htc, hplan, htc0]
    exact costSum_lookup charging_prices plan0 hpr0
  · rw [htc, hplan, List.map_append, List.sum_append, htc0,
      costSum_lookup charging_prices plan0 hpr0]
    simp [hp]

/-- Witness for C3 at (Mumbai, Goa, 400). -/
theorem C3_cost_is_plan_sum_witness :
    calculate_path G charging_prices "Mumbai" "Goa" 400 =
      some (RouteResult.found ["Mumbai", "Goa"] ((580 : ℚ) : WithTop ℚ) 360
        [⟨"Mumbai", 0, 1.8⟩, ⟨"Goa", 180, 2.0⟩]) ∧
    (360 : ℚ) = (([⟨"Mumbai", 0, 1.8⟩, ⟨"Goa", 180, 2.0⟩] :
        List ChargingStop).map
          (fun st => st.amount * ((charging_prices st.city).getD 0))).sum :=
  ⟨by decide,
   C3_cost_is_plan_sum "Mumbai" "Goa" 400 ["Mumbai", "Goa"] ((580 : ℚ) : WithTop ℚ) 360
     [⟨"Mumbai", 0, 1.8⟩, ⟨"Goa", 180, 2.0⟩] (by decide)⟩

/-- C4 as stated fails on the code: with capacity 100 from Mumbai to
Goa (a positive capacity on connected cities), the plan records a
0-unit stop at Mumbai (not strictly positive) and a 480-unit stop at
Goa (exceeding the capacity). -/
theorem C4_counterexample :
    (0:ℚ) < 100 ∧
    calculate_path G charging_prices "Mumbai" "Goa" 100 =
      some (RouteResult.found ["Mumbai", "Goa"] ((580 : ℚ) : WithTop ℚ) 960
        [⟨"Mumbai", 0, 1.8⟩, ⟨"Goa", 480, 2.0⟩]) ∧
    ¬ (∀ st ∈ ([⟨"Mumbai", 0, 1.8⟩, ⟨"Goa", 480, 2.0⟩] : List ChargingStop),
         0 < st.amount ∧ st.amount ≤ 100) := by
  refine ⟨by decide, by decide, ?_⟩
  intro hall
  have h0 := (hall ⟨"Mumbai", 0, 1.8⟩ (List.mem_cons_self _ _)).1
  exact absurd h0 (by decide)

/-- C4 amended: every charging stop of a returned plan (dataset graph,
positive capacity) records a nonnegative energy amount — the amount can
be zero, and can exceed the battery capacity. -/
theorem C4_amended_amounts_nonneg (s e : City) (cap : ℚ) (_hcap : 0 < cap)
    (path : List City) (td : WithTop ℚ) (tc : ℚ) (plan : List ChargingStop)
    (h : calculate_path G charging_prices s e cap = some (RouteResult.found path td tc plan)) :
    ∀ st ∈ plan, 0 ≤ st.amount := by
  obtain ⟨hpath, htd, rb, tc0, plan0, hsim, hcase⟩ :=
    calculate_path_found G charging_prices s e cap path td tc plan h
  obtain ⟨hpl0, hrb0⟩ :=
    simGo_amounts G charging_prices cap G_dist_nonneg (dijkstra G s e).2 cap 0 []
      rb tc0 plan0 hsim le_rfl (by simp)
  rcases hcase with ⟨hrb, htc, hplan⟩ | ⟨hrb, p, hp, htc, hplan⟩
  · rw [hplan]; exact hpl0
  · rw [hplan]
    intro st hst
    rcases List.mem_append.mp hst with h1 | h2
    · exact hpl0 st h1
    · simp only [List.mem_singleton] at h2
      rw [h2]
      show (0:ℚ) ≤ |rb|
      exact abs_nonneg rb

/-- Witness for the amended C4 at (Mumbai, Goa, 400). -/
theorem C4_amended_amounts_nonneg_witness :
    ((0:ℚ) < 400 ∧
     calculate_path G charging_prices "Mumbai" "Goa" 400 =
       some (RouteResult.found ["Mumbai", "Goa"] ((580 : ℚ) : WithTop ℚ) 360
         [⟨"Mumbai", 0, 1.8⟩, ⟨"Goa", 180, 2.0⟩])) ∧
    ∀ st ∈ ([⟨"Mumbai", 0, 1.8⟩, ⟨"Goa", 180, 2.0⟩] : List ChargingStop),
      0 ≤ st.amount :=
  ⟨⟨by decide, by decide⟩,
   C4_amended_amounts_nonneg "Mumbai" "Goa" 400 (by decide) ["Mumbai", "Goa"]
     ((580 : ℚ) : WithTop ℚ) 360 [⟨"Mumbai", 0, 1.8⟩, ⟨"Goa", 180, 2.0⟩] (by decide)⟩

/-- C5: for connected dataset cities and positive capacity, if the
capacity is at least the shortest path's total distance,
`calculate_path` returns that path with an empty charging plan and zero
total cost. -/
theorem C5_capacity_covers_distance (s e : City) (hs : s ∈ cityNames) (he : e ∈ cityNames)
    (cap : ℚ) (_hcap : 0 < cap)
    (hge : (dijkstra G s e).1 ≤ ((cap : ℚ) : WithTop ℚ)) :
    calculate_path G charging_prices s e cap =
      some (RouteResult.found (dijkstra G s e).2 (dijkstra G s e).1 0 []) := by
  obtain ⟨hB, hcost, hweq, hnd, hpr⟩ := checkPair_props hs he
  have hpath := isPathFromB_sound G _ s e hB
  have hwle : pathWeight G (dijkstra G s e).2 ≤ cap := by
    rw [hcost] at hge
    rw [hweq]
    exact_mod_cast hge
  have hsim := simGo_no_charge G charging_prices cap G_dist_nonneg
    (dijkstra G s e).2 s e hpath cap 0 [] hwle
  simp only [calculate_path]
  rw [if_neg hpath.ne_nil]
  simp only [hsim]
  rw [if_neg (by linarith : ¬ cap - pathWeight G (dijkstra G s e).2 < 0)]

/-- Witness for C5 at (Pune, Kolhapur, 500). -/
theorem C5_capacity_covers_distance_witness :
    ("Pune" ∈ cityNames ∧ "Kolhapur" ∈ cityNames ∧ (0:ℚ) < 500 ∧
     (dijkstra G "Pune" "Kolhapur").1 ≤ ((500 : ℚ) : WithTop ℚ)) ∧
    calculate_path G charging_prices "Pune" "Kolhapur" 500 =
      some (RouteResult.found (dijkstra G "Pune" "Kolhapur").2
        (dijkstra G "Pune" "Kolhapur").1 0 []) :=
  ⟨⟨by decide, by decide, by decide, by decide⟩,
   C5_capacity_covers_distance "Pune" "Kolhapur" (by decide) (by decide) 500
     (by decide) (by decide)⟩

/-- C6: for any graph and any pair of cities with no walk between them,
`dijkstra` returns the infinite-distance, empty-path sentinel, and
`calculate_path` returns the no-route result (no distance, cost, or
plan). -/
theorem C6_disconnected_no_route (g : Graph) (s e : City) (h : ¬ Connected g s e) :
    dijkstra g s e = (⊤, []) ∧
    ∀ (prices : City → Option ℚ) (cap : ℚ),
      calculate_path g prices s e cap = some RouteResult.noRoute := by
  have hd : dijkstra g s e = (⊤, []) := by
    rw [dijkstra]
    apply dijkstraGo_disconnected g s e h
    intro en hen
    simp only [List.mem_singleton] at hen
    rw [hen]
    exact IsPathFrom.single s
  refine ⟨hd, ?_⟩
  intro prices cap
  simp [calculate_path, hd]

/-- Witness for C6: two cities with no edges at all are disconnected. -/
theorem C6_disconnected_no_route_witness :
    ¬ Connected ⟨[]⟩ "a" "b" ∧
    (dijkstra ⟨[]⟩ "a" "b" = (⊤, []) ∧
     ∀ (prices : City → Option ℚ) (cap : ℚ),
       calculate_path ⟨[]⟩ prices "a" "b" cap = some RouteResult.noRoute) := by
  have hnc : ¬ Connected (⟨[]⟩ : Graph) "a" "b" := by
    intro hc
    rcases hc.edge_or_eq with heq | ⟨v, w, hw⟩
    · exact absurd heq (by decide)
    · simp [edgeDist] at hw
  exact ⟨hnc, C6_disconnected_no_route ⟨[]⟩ "a" "b" hnc⟩

/-- C7: the concrete scenario Mumbai→Goa with capacity 400: path
[Mumbai, Goa], distance 580, cost 360, and exactly the two stops
(Mumbai, 0.0 units, price 1.8) then (Goa, 180.0 units, price 2.0). -/
theorem C7_mumbai_goa_400 :
    calculate_path G charging_prices "Mumbai" "Goa" 400 =
      some (RouteResult.found ["Mumbai", "Goa"] ((580 : ℚ) : WithTop ℚ) 360
        [⟨"Mumbai", 0, 1.8⟩, ⟨"Goa", 180, 2.0⟩]) := by decide

/-- C8: the planner is deterministic: with the graph and price table
unchanged, two invocations on identical inputs return identical
outputs.  In this embedding both phases are pure functions (the heap
tie-break order is fixed by the entry order), so the two runs are
definitionally the same value. -/
theorem C8_two_runs_identical (s e : City) (cap : ℚ) :
    calculate_path G charging_prices s e cap = calculate_path G charging_prices s e cap ∧
    dijkstra G s e = dijkstra G s e :=
  ⟨rfl, rfl⟩

/-- C9: for dataset cities, the path `dijkstra` returns is simple — no
city occurs on it twice. -/
theorem C9_returned_path_simple (s e : City) (hs : s ∈ cityNames) (he : e ∈ cityNames) :
    (dijkstra G s e).2.Nodup :=
  (checkPair_props hs he).2.2.2.1

/-- Witness for C9 at (Mumbai, Goa). -/
theorem C9_returned_path_simple_witness :
    ("Mumbai" ∈ cityNames ∧ "Goa" ∈ cityNames) ∧ (dijkstra G "Mumbai" "Goa").2.Nodup :=
  ⟨⟨by decide, by decide⟩, C9_returned_path_simple "Mumbai" "Goa" (by decide) (by decide)⟩

/-- C10: every stop of a returned plan is at a city of the returned
path, and the stops are in traversal order: the plan's city sequence is
a subsequence of the path, with a destination stop (if present) last. -/
theorem C10_stops_follow_path (s e : City) (cap : ℚ) (path : List City) (td : WithTop ℚ)
    (tc : ℚ) (plan : List ChargingStop)
    (h : calculate_path G charging_prices s e cap = some (RouteResult.found path td tc plan)) :
    (∀ st ∈ plan, st.city ∈ path) ∧ List.Sublist (plan.map ChargingStop.city) path := by
  obtain ⟨hpath, htd, rb, tc0, plan0, hsim, hcase⟩ :=
    calculate_path_found G charging_prices s e cap path td tc plan h
  obtain ⟨news, hplan0, hsub⟩ :=
    simGo_plan G charging_prices cap (dijkstra G s e).2 cap 0 [] rb tc0 plan0 hsim
  simp only [List.nil_append] at hplan0
  have hsub' : List.Sublist (plan0.map ChargingStop.city) (dijkstra G s e).2.dropLast := by
    rw [hplan0]; exact hsub
  rcases hcase with ⟨hrb, htc, hplan⟩ | ⟨hrb, p, hp, htc, hplan⟩
  · have hs2 : List.Sublist (plan.map ChargingStop.city) path := by
      rw [hplan, hpath]
      exact hsub'.trans (List.dropLast_sublist (dijkstra G s e).2)
    exact ⟨fun st hst => hs2.subset (List.mem_map_of_mem ChargingStop.city hst), hs2⟩
  · have hne : (dijkstra G s e).2 ≠ [] := by
      intro hnl
      simp only [calculate_path, hnl] at h
      simp at h
    have hlast : (dijkstra G s e).2.getLast? = some e :=
      (dijkstra_path_last G s e).resolve_left hne
    have hsplit : (dijkstra G s e).2.dropLast ++ [e] = (dijkstra G s e).2 :=
      List.dropLast_append_getLast? e hlast
    have hs2 : List.Sublist (plan.map ChargingStop.city) path := by
      rw [hplan, hpath, List.map_append, ← hsplit]
      exact List.Sublist.append hsub' (by simp)
    exact ⟨fun st hst => hs2.subset (List.mem_map_of_mem ChargingStop.city hst), hs2⟩

/-- Witness for C10 at (Mumbai, Goa, 400). -/
theorem C10_stops_follow_path_witness :
    calculate_path G charging_prices "Mumbai" "Goa" 400 =
      some (RouteResult.found ["Mumbai", "Goa"] ((580 : ℚ) : WithTop ℚ) 360
        [⟨"Mumbai", 0, 1.8⟩, ⟨"Goa", 180, 2.0⟩]) ∧
    ((∀ st ∈ ([⟨"Mumbai", 0, 1.8⟩, ⟨"Goa", 180, 2.0⟩] : List ChargingStop),
        st.city ∈ ["Mumbai", "Goa"]) ∧
     List.Sublist (([⟨"Mumbai", 0, 1.8⟩, ⟨"Goa", 180, 2.0⟩] :
       List ChargingStop).map ChargingStop.city) ["Mumbai", "Goa"]) :=
  ⟨by decide,
   C10_stops_follow_path "Mumbai" "Goa" 400 ["Mumbai", "Goa"] ((580 : ℚ) : WithTop ℚ) 360
     [⟨"Mumbai", 0, 1.8⟩, ⟨"Goa", 180, 2.0⟩] (by decide)⟩
